import Mathlib

/-
Verification of the binius binary-tower-field library.

The development shallowly embeds the three source files:
  binary_field.rs : GF(2^N) elements as N-bit coefficient vectors with
                    carry-less-convolution-then-reduce multiplication;
  tower.rs        : tower-ring elements as limb sequences over the base field,
                    with Karatsuba-style recursive multiplication;
  polynomial.rs   : the multilinear evaluator.

Base-field elements are `List Bool` (coefficient i = coefficient of x^i);
ring elements are `List (List Bool)` (limb sequences).  Code that can panic
in Rust (failed asserts, out-of-range indexing, division by zero, iterator
exhaustion) is embedded as an `Option`-returning function, `none` meaning a
panic.  Recursions on halved lists use an explicit fuel argument (initialised
to the list length, which bounds the recursion depth) so that all embedded
functions compute by kernel reduction.
-/

namespace Binius

/-- Configuration of a concrete binary field: width `N`, the reduction window
derived from the irreducible polynomial, and the per-field imaginary-unit
constant (mirrors the trait `BinaryFieldConfig`). -/
structure BinaryFieldConfig where
  N : Nat
  poly : List Bool
  imag_unit : List Bool
deriving DecidableEq

/-- The AES field configuration: N = 8 with the 0x1B reduction window. -/
def AESPoly : BinaryFieldConfig :=
  { N := 8
    poly := [false, false, false, true, true, false, true, true]
    imag_unit := [true, true, false, false, true, false, true, true] }

/-- The trivial field configuration: N = 1. -/
def F2 : BinaryFieldConfig :=
  { N := 1, poly := [false], imag_unit := [true] }

/-- BinaryField::default — the all-false coefficient vector. -/
def bfZero (F : BinaryFieldConfig) : List Bool := List.replicate F.N false

/-- BinaryField::one — default with coefficient 0 set. -/
def bfOne (F : BinaryFieldConfig) : List Bool := (List.replicate F.N false).set 0 true

/-- Add for BinaryField: pointwise xor of the N coefficients. -/
def bfAdd (a b : List Bool) : List Bool := List.zipWith xor a b

/-- From of u8 for BinaryField: bit i of the byte becomes coefficient i,
coefficients 8..N stay false.  The source asserts 8 <= N; the instance used
in the claims is AESPoly, where N = 8. -/
def bfFromU8 (F : BinaryFieldConfig) (v : Nat) : List Bool :=
  (List.range F.N).map (fun i => decide (i < 8) && v.testBit i)

/-- Inner loop of the carry-less convolution (fixed i, j ranging over 0..N). -/
def convInner (N : Nat) (a b : List Bool) (t : List Bool) (i : Nat) : List Bool :=
  (List.range N).foldl
    (fun u j => u.set (i + j) (xor (u.getD (i + j) false) (a.getD i false && b.getD j false))) t

/-- Outer loop of the carry-less convolution. -/
def convLoop (N : Nat) (a b : List Bool) (t : List Bool) : List Bool :=
  (List.range N).foldl (convInner N a b) t

/-- Inner loop of the reduction: xor the window into positions i-1-j. -/
def reduceInner (N : Nat) (poly : List Bool) (t : List Bool) (i : Nat) : List Bool :=
  (List.range N).foldl
    (fun u j => u.set (i - 1 - j) (xor (u.getD (i - 1 - j) false) (poly.getD j false))) t

/-- One reduction step at surplus index i: if the bit is set, clear it and
xor the window below it. -/
def reduceStep (N : Nat) (poly : List Bool) (t : List Bool) (i : Nat) : List Bool :=
  if t.getD i false then reduceInner N poly (t.set i false) i else t

/-- Reduction loop over surplus indices 2N-2 down to N. -/
def reduceLoop (N : Nat) (poly : List Bool) (t : List Bool) : List Bool :=
  ((List.range' N (N - 1)).reverse).foldl (reduceStep N poly) t

/-- Mul for BinaryField: carry-less convolution into a 2N-1 buffer, reduction
of the surplus bits from the top down, then the low N coefficients. -/
def bfMul (F : BinaryFieldConfig) (a b : List Bool) : List Bool :=
  (reduceLoop F.N F.poly (convLoop F.N a b (List.replicate (2 * F.N - 1) false))).take F.N

/-- BinaryField::mul_by_imag_unit — multiply by the per-field constant. -/
def bfMulByImagUnit (F : BinaryFieldConfig) (a : List Bool) : List Bool :=
  bfMul F a F.imag_unit

/-- Fuelled power-of-two test (usize::is_power_of_two); fuel bounds the
halving recursion so the function computes by kernel reduction. -/
def ipoAux : Nat → Nat → Bool
  | 0, _ => false
  | _ + 1, 0 => false
  | _ + 1, 1 => true
  | fuel + 1, m + 2 => decide ((m + 2) % 2 = 0) && ipoAux fuel ((m + 2) / 2)

/-- usize::is_power_of_two, used by the tower asserts. -/
def is_power_of_two (n : Nat) : Bool := ipoAux n n

/-- add_limbs_helper from tower.rs: limb-wise base-field add of two slices
(Rust zip truncates to the shorter slice). -/
def add_limbs_helper (a b : List (List Bool)) : List (List Bool) :=
  List.zipWith bfAdd a b

/-- Fuelled body of mul_by_imag_unit from tower.rs.  Length 1: base-field
constant multiply.  Then assert is_power_of_two (the len >= 2 assert of the
source is implied).  Length 2: (a1, a0 + imag*a1).  Otherwise recurse on the
upper-index half. -/
def mbiuAux (F : BinaryFieldConfig) : Nat → List (List Bool) → Option (List (List Bool))
  | 0, _ => none
  | fuel + 1, a =>
    if a.length = 1 then some [bfMulByImagUnit F (a.getD 0 [])]
    else if is_power_of_two a.length then
      if a.length = 2 then
        some [a.getD 1 [], bfAdd (a.getD 0 []) (bfMulByImagUnit F (a.getD 1 []))]
      else
        let half_len := a.length / 2
        let low := a.drop half_len
        match mbiuAux F fuel low with
        | some shift => some (low ++ add_limbs_helper shift (a.take half_len))
        | none => none
    else none

/-- mul_by_imag_unit from tower.rs (none = panic of an assert). -/
def mul_by_imag_unit (F : BinaryFieldConfig) (a : List (List Bool)) :
    Option (List (List Bool)) :=
  mbiuAux F a.length a

/-- Fuelled body of recursive_mul from tower.rs: assert equal lengths, base
case length 1, assert power of two, then the three Karatsuba sub-products
and the imaginary-unit carry fold. -/
def rmAux (F : BinaryFieldConfig) :
    Nat → List (List Bool) → List (List Bool) → Option (List (List Bool))
  | 0, _, _ => none
  | fuel + 1, a, b =>
    if a.length = b.length then
      if a.length = 1 then some [bfMul F (a.getD 0 []) (b.getD 0 [])]
      else if is_power_of_two a.length then
        let half_len := a.length / 2
        let a_low := a.take half_len
        let a_high := a.drop half_len
        let b_low := b.take half_len
        let b_high := b.drop half_len
        let a_sum := add_limbs_helper a_low a_high
        let b_sum := add_limbs_helper b_low b_high
        match rmAux F fuel a_low b_low, rmAux F fuel a_high b_high,
            rmAux F fuel a_sum b_sum with
        | some pll, some phh, some pss =>
          match mul_by_imag_unit F phh with
          | some shift =>
            some (add_limbs_helper pll phh ++
              add_limbs_helper (add_limbs_helper (add_limbs_helper pss pll) phh) shift)
          | none => none
        | _, _, _ => none
      else none
    else none

/-- recursive_mul from tower.rs (none = panic of an assert). -/
def recursive_mul (F : BinaryFieldConfig) (a b : List (List Bool)) :
    Option (List (List Bool)) :=
  rmAux F a.length a b

/-- Mul for Ring from tower.rs.  Equal lengths: recursive_mul.  Unequal:
split the longer operand into floor(long/short) chunks of the shorter
length and multiply each by the shorter operand (each chunk has the length
of short, so the chunk product is recursive_mul).  A zero-length short
operand makes the Rust division panic, hence none. -/
def ringMul (F : BinaryFieldConfig) (x y : List (List Bool)) :
    Option (List (List Bool)) :=
  if x.length = y.length then recursive_mul F x y
  else
    let long := if x.length < y.length then y else x
    let short := if x.length < y.length then x else y
    if short.length = 0 then none
    else
      let k := long.length / short.length
      (List.range k).foldl
        (fun acc i =>
          match acc, recursive_mul F ((long.drop (short.length * i)).take short.length) short with
          | some r, some c => some (r ++ c)
          | _, _ => none)
        (some [])

/-- Add for Ring from tower.rs: clone the left operand, then for each index
below the length of the right operand xor the right limb in.  The Vec index
panics when the right operand is longer (reserve only grows capacity), hence
none in that case. -/
def ringAdd (x y : List (List Bool)) : Option (List (List Bool)) :=
  if y.length ≤ x.length then
    some (List.zipWith bfAdd (x.take y.length) y ++ x.drop y.length)
  else none

/-- Sub for Ring: defined in the source as add (characteristic 2). -/
def ringSub (x y : List (List Bool)) : Option (List (List Bool)) := ringAdd x y

/-- Bit stream of Ring::from_bytes: bytes reversed, each byte emitted
least-significant bit first. -/
def bytes_to_bits_le (value : List Nat) : List Bool :=
  (value.reverse).flatMap (fun byte => (List.range 8).map (fun i => byte.testBit i))

/-- Ring::from_bytes: consume l groups of N bits from the stream; the
iterator unwrap panics (none) exactly when fewer than l*N bits exist. -/
def from_bytes (F : BinaryFieldConfig) (l : Nat) (value : List Nat) :
    Option (List (List Bool)) :=
  let bits_le := bytes_to_bits_le value
  if l * F.N ≤ bits_le.length then
    some ((List.range l).map (fun k => (bits_le.drop (k * F.N)).take F.N))
  else none

/-- Default for Ring: the single-limb sequence holding the base-field zero. -/
def ring_default (F : BinaryFieldConfig) : List (List Bool) := [bfZero F]

/-- Modelled from the spec: Ring::one is referenced by the tests of
polynomial.rs but its definition is not present in the sources; per the spec
the multiplicative identity is the single-limb sequence holding the
base-field one. -/
def ring_one (F : BinaryFieldConfig) : List (List Bool) := [bfOne F]

/-- One pair update of the evaluator fold:
poly[b] = left + r * (right - left). -/
def evalPair (F : BinaryFieldConfig) (r : List (List Bool))
    (p : List (List (List Bool))) (b : Nat) : Option (List (List (List Bool))) :=
  (ringSub (p.getD (2 * b + 1) []) (p.getD (2 * b) [])).bind fun diff =>
    (ringMul F r diff).bind fun prod =>
      (ringAdd (p.getD (2 * b) []) prod).map fun s => p.set b s

/-- Inner loop of the evaluator for variable i: pairs b in 0 .. 2^(dim-i). -/
def evalRow (F : BinaryFieldConfig) (r : List (List Bool)) (dim i : Nat)
    (p : List (List (List Bool))) : Option (List (List (List Bool))) :=
  (List.range (2 ^ (dim - i))).foldl (fun acc b => acc.bind fun p2 => evalPair F r p2 b) (some p)

/-- Fuelled floor base-2 logarithm (u32::ilog2 for positive arguments); fuel
bounds the halving recursion.  Proved equal to Nat.log2 below. -/
def ilog2Aux : Nat → Nat → Nat
  | 0, _ => 0
  | fuel + 1, n => if 2 ≤ n then ilog2Aux fuel (n / 2) + 1 else 0

/-- u32::ilog2 on positive arguments (the caller handles the zero panic). -/
def u32_ilog2 (n : Nat) : Nat := ilog2Aux n n

/-- Polynomial::evaluate from polynomial.rs: dim = ilog2 of the table length
(panics on 0), assert dim = point length, then the fold. -/
def evaluate (F : BinaryFieldConfig) (evaluations : List (List (List Bool)))
    (x : List (List (List Bool))) : Option (List (List Bool)) :=
  if evaluations.length = 0 then none
  else
    let dim := u32_ilog2 evaluations.length
    if dim = x.length then
      ((List.range' 1 dim).foldl (fun acc i => acc.bind (evalRow F (x.getD (i - 1) []) dim i))
        (some evaluations)).map fun p => p.getD 0 []
    else none

/-- One iteration of the classical AES reference multiplication from the
test of binary_field.rs, on u8 state (a, b, sum): conditionally xor a into
sum, halve b, then xtime a with the 0x1B wrap. -/
def aes_ref_step (st : Nat × Nat × Nat) : Nat × Nat × Nat :=
  let a := st.1
  let b := st.2.1
  let s := st.2.2
  let s2 := if b % 2 = 1 then s ^^^ a else s
  let b2 := b / 2
  let a2 := a * 2 % 256
  let a3 := if a &&& 128 ≠ 0 then a2 ^^^ 27 else a2
  (a3, b2, s2)

/-- n-fold iteration of the reference step. -/
def aes_ref_iter : Nat → Nat × Nat × Nat → Nat × Nat × Nat
  | 0, st => st
  | n + 1, st => aes_ref_iter n (aes_ref_step st)

/-- The classical XOR-and-shift-with-0x1B AES multiplication (the reference
implementation in the test of binary_field.rs): eight iterations starting
from sum 0. -/
def reference_implementation (a b : Nat) : Nat := (aes_ref_iter 8 (a, b, 0)).2.2

/-- The formula of the multilinear-evaluation spec sentence, computed the
way the test of polynomial.rs computes it:
(1-r1)(1-r2) e00 + r1 (1-r2) e01 + (1-r1) r2 e10 + r1 r2 e11,
accumulated from Ring zero by add-assign. -/
def c5_formula (F : BinaryFieldConfig) (e00 e01 e10 e11 r1 r2 : List (List Bool)) :
    Option (List (List Bool)) :=
  (ringSub (ring_one F) r1).bind fun om1 =>
  (ringSub (ring_one F) r2).bind fun om2 =>
  (ringMul F om1 om2).bind fun c00 =>
  (ringMul F c00 e00).bind fun t00 =>
  (ringMul F r1 om2).bind fun c01 =>
  (ringMul F c01 e01).bind fun t01 =>
  (ringMul F om1 r2).bind fun c10 =>
  (ringMul F c10 e10).bind fun t10 =>
  (ringMul F r1 r2).bind fun c11 =>
  (ringMul F c11 e11).bind fun t11 =>
  (ringAdd (ring_default F) t00).bind fun s0 =>
  (ringAdd s0 t01).bind fun s1 =>
  (ringAdd s1 t10).bind fun s2 =>
  ringAdd s2 t11

/-- Big-endian integer value of a byte sequence (each entry taken mod 256),
used to state what from_bytes decodes. -/
def beNat (value : List Nat) : Nat :=
  value.foldl (fun acc b => acc * 256 + b % 256) 0

/-- Little-endian value of a byte list (entries mod 256), head first; proof
model for beNat. -/
def leNat : List Nat → Nat
  | [] => 0
  | b :: t => b % 256 + 256 * leNat t

/-- Coefficient embedding of a bit into GF(2). -/
def bitC (b : Bool) : ZMod 2 := if b then 1 else 0

/-- Generic xor-update loop: for j below m, xor val j into position pos j.
Both loops of the base-field multiplication are instances of this. -/
def xorUpd (pos : Nat → Nat) (val : Nat → Bool) (t : List Bool) (m : Nat) : List Bool :=
  (List.range m).foldl (fun u j => u.set (pos j) (xor (u.getD (pos j) false) (val j))) t

/-- Polynomial over GF(2) with the coefficients of a bit list. -/
noncomputable def toP (l : List Bool) : Polynomial (ZMod 2) :=
  ∑ i ∈ Finset.range l.length, Polynomial.C (bitC (l.getD i false)) * Polynomial.X ^ i

/-- The modulus polynomial of a field configuration: X^N plus the reversed
reduction window (the window is applied at positions i-1-j, so coefficient j
of the window sits at degree N-1-j). -/
noncomputable def modPoly (F : BinaryFieldConfig) : Polynomial (ZMod 2) :=
  Polynomial.X ^ F.N + toP (F.poly.reverse)

/-- Polynomial of the low 8 bits of a byte in the AES field. -/
noncomputable def bP (v : Nat) : Polynomial (ZMod 2) := toP (bfFromU8 AESPoly v)

/-- Image of a byte in the quotient ring GF(2)[x]/(modPoly AESPoly). -/
noncomputable def Phi (v : Nat) : AdjoinRoot (modPoly AESPoly) :=
  AdjoinRoot.mk (modPoly AESPoly) (bP v)

end Binius

namespace Binius

/- List helper lemmas. -/

theorem list_getD_eq_default {α : Type} (l : List α) (d : α) (j : Nat)
    (h : l.length ≤ j) : l.getD j d = d := by
  induction l generalizing j with
  | nil => simp
  | cons x xs ih =>
    cases j with
    | zero => simp at h
    | succ m => simpa using ih m (by simpa using h)

theorem list_getD_set_self {α : Type} (l : List α) (i : Nat) (b d : α)
    (h : i < l.length) : (l.set i b).getD i d = b := by
  induction l generalizing i with
  | nil => simp at h
  | cons x xs ih =>
    cases i with
    | zero => simp
    | succ m => simpa using ih m (by simpa using h)

theorem list_getD_set_ne {α : Type} (l : List α) (i j : Nat) (b d : α)
    (h : i ≠ j) : (l.set i b).getD j d = l.getD j d := by
  induction l generalizing i j with
  | nil => simp
  | cons x xs ih =>
    cases i with
    | zero =>
      cases j with
      | zero => exact absurd rfl h
      | succ m => simp
    | succ n =>
      cases j with
      | zero => simp
      | succ m => simpa using ih n m (by omega)

theorem list_getD_take {α : Type} (l : List α) (n j : Nat) (d : α)
    (h : j < n) : (l.take n).getD j d = l.getD j d := by
  induction l generalizing n j with
  | nil => simp
  | cons x xs ih =>
    cases n with
    | zero => omega
    | succ m =>
      cases j with
      | zero => simp
      | succ i => simpa using ih m i (by omega)

theorem list_getD_drop {α : Type} (l : List α) (n j : Nat) (d : α) :
    (l.drop n).getD j d = l.getD (n + j) d := by
  induction l generalizing n with
  | nil => simp
  | cons x xs ih =>
    cases n with
    | zero => simp
    | succ m => simp [Nat.succ_add, ih m]

theorem list_getD_append_left {α : Type} (a b : List α) (j : Nat) (d : α)
    (h : j < a.length) : (a ++ b).getD j d = a.getD j d := by
  induction a generalizing j with
  | nil => simp at h
  | cons x xs ih =>
    cases j with
    | zero => simp
    | succ m => simpa using ih m (by simpa using h)

theorem list_getD_append_right {α : Type} (a b : List α) (j : Nat) (d : α)
    (h : a.length ≤ j) : (a ++ b).getD j d = b.getD (j - a.length) d := by
  induction a generalizing j with
  | nil => simp
  | cons x xs ih =>
    cases j with
    | zero => simp at h
    | succ m => simpa using ih m (by simpa using h)

theorem list_getD_replicate {α : Type} (n j : Nat) (a d : α)
    (h : a = d) : (List.replicate n a).getD j d = d := by
  induction n generalizing j with
  | zero => simp
  | succ m ih =>
    cases j with
    | zero => simpa using h
    | succ i =>
      rw [List.replicate_succ]
      simpa using ih i

theorem list_getD_zipWith_xor (a b : List Bool) (j : Nat)
    (h : a.length = b.length) :
    (List.zipWith xor a b).getD j false = xor (a.getD j false) (b.getD j false) := by
  induction a generalizing b j with
  | nil =>
    cases b with
    | nil => simp
    | cons y ys => simp at h
  | cons x xs ih =>
    cases b with
    | nil => simp at h
    | cons y ys =>
      cases j with
      | zero => simp
      | succ m => simpa using ih ys m (by simpa using h)

theorem list_ext_getD {α : Type} (a b : List α) (d : α)
    (hl : a.length = b.length) (h : ∀ j, a.getD j d = b.getD j d) : a = b := by
  induction a generalizing b with
  | nil =>
    cases b with
    | nil => rfl
    | cons y ys => simp at hl
  | cons x xs ih =>
    cases b with
    | nil => simp at hl
    | cons y ys =>
      have h0 := h 0
      simp at h0
      have : xs = ys := ih ys (by simpa using hl) (fun j => by simpa using h (j + 1))
      rw [h0, this]

theorem list_getD_range_map {α : Type} (n i : Nat) (f : Nat → α) (d : α) :
    ((List.range n).map f).getD i d = if i < n then f i else d := by
  induction n generalizing i with
  | zero => simp
  | succ m ih =>
    rw [List.range_succ]
    by_cases h : i < m
    · rw [List.map_append, list_getD_append_left _ _ _ _ (by simpa using h)]
      rw [ih, if_pos h, if_pos (by omega)]
    · by_cases h2 : i = m
      · subst h2
        rw [List.map_append, list_getD_append_right _ _ _ _ (by simp)]
        simp
      · rw [List.map_append, list_getD_append_right _ _ _ _ (by simp; omega)]
        rw [if_neg (by omega)]
        exact list_getD_eq_default _ _ _ (by simp; omega)

/- Power-of-two helper lemmas. -/

theorem ipoAux_mono : ∀ f g m, m ≤ f → m ≤ g → ipoAux f m = ipoAux g m := by
  intro f
  induction f with
  | zero =>
    intro g m hf hg
    have hm : m = 0 := by omega
    subst hm
    cases g <;> rfl
  | succ f0 ih =>
    intro g m hf hg
    cases g with
    | zero =>
      have hm : m = 0 := by omega
      subst hm
      rfl
    | succ g0 =>
      match m with
      | 0 => rfl
      | 1 => rfl
      | k + 2 =>
        show (decide ((k + 2) % 2 = 0) && ipoAux f0 ((k + 2) / 2))
            = (decide ((k + 2) % 2 = 0) && ipoAux g0 ((k + 2) / 2))
        rw [ih g0 ((k + 2) / 2) (by omega) (by omega)]

theorem ipo_ne_zero (n : Nat) (h : is_power_of_two n = true) : n ≠ 0 := by
  intro h0
  subst h0
  simp [is_power_of_two, ipoAux] at h

theorem ipo_unfold (m : Nat) :
    is_power_of_two (m + 2)
      = (decide ((m + 2) % 2 = 0) && is_power_of_two ((m + 2) / 2)) := by
  show (decide ((m + 2) % 2 = 0) && ipoAux (m + 1) ((m + 2) / 2)) = _
  rw [ipoAux_mono (m + 1) ((m + 2) / 2) ((m + 2) / 2) (by omega) le_rfl]
  rfl

theorem ipo_half (n : Nat) (h2 : 2 ≤ n) (h : is_power_of_two n = true) :
    n % 2 = 0 ∧ is_power_of_two (n / 2) = true := by
  obtain ⟨m, rfl⟩ : ∃ m, n = m + 2 := ⟨n - 2, by omega⟩
  rw [ipo_unfold] at h
  simp only [Bool.and_eq_true, decide_eq_true_eq] at h
  exact h

theorem ipo_two : is_power_of_two 2 = true := rfl

theorem ipo_ge_two (n : Nat) (h1 : n ≠ 1) (h : is_power_of_two n = true) : 2 ≤ n := by
  have := ipo_ne_zero n h
  omega

/- Floor log2 helper lemmas. -/

theorem ilog2Aux_mono : ∀ f g n, n ≤ f → n ≤ g → ilog2Aux f n = ilog2Aux g n := by
  intro f
  induction f with
  | zero =>
    intro g n hf hg
    have hn : n = 0 := by omega
    subst hn
    cases g <;> rfl
  | succ f0 ih =>
    intro g n hf hg
    cases g with
    | zero =>
      have hn : n = 0 := by omega
      subst hn
      rfl
    | succ g0 =>
      show (if 2 ≤ n then ilog2Aux f0 (n / 2) + 1 else 0)
          = (if 2 ≤ n then ilog2Aux g0 (n / 2) + 1 else 0)
      by_cases h : 2 ≤ n
      · rw [if_pos h, if_pos h, ih g0 (n / 2) (by omega) (by omega)]
      · rw [if_neg h, if_neg h]

theorem u32_ilog2_eq_log2 : ∀ n, u32_ilog2 n = Nat.log2 n := by
  intro n
  induction n using Nat.strong_induction_on with
  | _ n ih =>
    rw [Nat.log2]
    match n with
    | 0 => rfl
    | 1 => rfl
    | m + 2 =>
      rw [if_pos (by omega)]
      show (if 2 ≤ m + 2 then ilog2Aux (m + 1) ((m + 2) / 2) + 1 else 0) = _
      rw [if_pos (by omega)]
      rw [ilog2Aux_mono (m + 1) ((m + 2) / 2) ((m + 2) / 2) (by omega) le_rfl]
      have hw : ilog2Aux ((m + 2) / 2) ((m + 2) / 2) = Nat.log2 ((m + 2) / 2) :=
        ih ((m + 2) / 2) (by omega)
      rw [hw]

/- Fuel monotonicity for the tower recursions. -/

theorem mbiuAux_mono (F : BinaryFieldConfig) :
    ∀ f g (a : List (List Bool)), a.length ≤ f → a.length ≤ g →
      mbiuAux F f a = mbiuAux F g a := by
  intro f
  induction f with
  | zero =>
    intro g a hf hg
    have ha : a = [] := by
      cases a with
      | nil => rfl
      | cons x xs => simp at hf
    subst ha
    cases g <;> rfl
  | succ f0 ih =>
    intro g a hf hg
    cases g with
    | zero =>
      have ha : a = [] := by
        cases a with
        | nil => rfl
        | cons x xs => simp at hg
      subst ha
      rfl
    | succ g0 =>
      show mbiuAux F (f0 + 1) a = mbiuAux F (g0 + 1) a
      simp only [mbiuAux]
      by_cases h1 : a.length = 1
      · simp [h1]
      · simp only [h1, if_false]
        by_cases hp : is_power_of_two a.length
        · simp only [hp, if_true]
          by_cases h2 : a.length = 2
          · simp [h2]
          · simp only [h2, if_false]
            have hge : 2 ≤ a.length := ipo_ge_two _ h1 hp
            have hge3 : 3 ≤ a.length := by omega
            have hlow : (a.drop (a.length / 2)).length ≤ f0 := by
              simp
              omega
            have hlow2 : (a.drop (a.length / 2)).length ≤ g0 := by
              simp
              omega
            rw [ih g0 (a.drop (a.length / 2)) hlow hlow2]
        · simp [hp]

theorem rmAux_mono (F : BinaryFieldConfig) :
    ∀ f g (a b : List (List Bool)), a.length ≤ f → a.length ≤ g →
      rmAux F f a b = rmAux F g a b := by
  intro f
  induction f with
  | zero =>
    intro g a b hf hg
    have ha : a = [] := by
      cases a with
      | nil => rfl
      | cons x xs => simp at hf
    subst ha
    cases g with
    | zero => rfl
    | succ g0 =>
      show none = rmAux F (g0 + 1) [] b
      simp only [rmAux]
      by_cases hb : (0 : Nat) = b.length
      · simp only [List.length_nil, ← hb, if_pos rfl]
        norm_num [is_power_of_two, ipoAux]
      · simp [List.length_nil, hb]
  | succ f0 ih =>
    intro g a b hf hg
    cases g with
    | zero =>
      have ha : a = [] := by
        cases a with
        | nil => rfl
        | cons x xs => simp at hg
      subst ha
      show rmAux F (f0 + 1) [] b = none
      simp only [rmAux]
      by_cases hb : (0 : Nat) = b.length
      · simp only [List.length_nil, ← hb, if_pos rfl]
        norm_num [is_power_of_two, ipoAux]
      · simp [List.length_nil, hb]
    | succ g0 =>
      show rmAux F (f0 + 1) a b = rmAux F (g0 + 1) a b
      simp only [rmAux]
      by_cases hab : a.length = b.length
      · simp only [hab, if_pos rfl]
        by_cases h1 : b.length = 1
        · simp [h1]
        · simp only [h1, if_false]
          by_cases hp : is_power_of_two b.length
          · simp only [hp, if_true]
            have hge : 2 ≤ b.length := ipo_ge_two _ h1 hp
            have hl1 : (a.take (b.length / 2)).length ≤ f0 := by
              simp
              omega
            have hl2 : (a.take (b.length / 2)).length ≤ g0 := by
              simp
              omega
            have hh1 : (a.drop (b.length / 2)).length ≤ f0 := by
              simp [hab]
              omega
            have hh2 : (a.drop (b.length / 2)).length ≤ g0 := by
              simp [hab]
              omega
            have hs1 : (add_limbs_helper (a.take (b.length / 2)) (a.drop (b.length / 2))).length ≤ f0 := by
              simp [add_limbs_helper, hab]
              omega
            have hs2 : (add_limbs_helper (a.take (b.length / 2)) (a.drop (b.length / 2))).length ≤ g0 := by
              simp [add_limbs_helper, hab]
              omega
            rw [ih g0 _ _ hl1 hl2, ih g0 _ _ hh1 hh2, ih g0 _ _ hs1 hs2]
          · simp [hp]
      · simp [hab]

theorem list_getD_reverse {α : Type} (l : List α) (m : Nat) (d : α)
    (h : m < l.length) :
    (l.reverse).getD m d = l.getD (l.length - 1 - m) d := by
  induction l generalizing m with
  | nil => simp at h
  | cons x xs ih =>
    rw [List.reverse_cons]
    by_cases hm : m < xs.length
    · rw [list_getD_append_left _ _ _ _ (by simpa using hm), ih m hm]
      have hx : (x :: xs).length - 1 - m = (xs.length - 1 - m) + 1 := by
        simp; omega
      rw [hx]
      simp
    · have hm2 : m = xs.length := by simp at h; omega
      subst hm2
      rw [list_getD_append_right _ _ _ _ (by simp)]
      simp

/- Unfold lemmas for the tower operations. -/

theorem mbiu_len1 (F : BinaryFieldConfig) (a : List (List Bool)) (h : a.length = 1) :
    mul_by_imag_unit F a = some [bfMulByImagUnit F (a.getD 0 [])] := by
  show mbiuAux F a.length a = _
  conv_lhs => rw [h]
  show mbiuAux F (0 + 1) a = _
  simp only [mbiuAux]
  rw [if_pos h]

theorem mbiu_len2 (F : BinaryFieldConfig) (a : List (List Bool)) (h : a.length = 2) :
    mul_by_imag_unit F a
      = some [a.getD 1 [], bfAdd (a.getD 0 []) (bfMulByImagUnit F (a.getD 1 []))] := by
  show mbiuAux F a.length a = _
  conv_lhs => rw [h]
  show mbiuAux F (1 + 1) a = _
  simp only [mbiuAux]
  rw [if_neg (by omega), if_pos (by rw [h]; rfl), if_pos h]

theorem mbiu_step (F : BinaryFieldConfig) (a : List (List Bool))
    (hp : is_power_of_two a.length = true) (h3 : 3 ≤ a.length) :
    mul_by_imag_unit F a =
      match mul_by_imag_unit F (a.drop (a.length / 2)) with
      | some shift =>
        some (a.drop (a.length / 2) ++ add_limbs_helper shift (a.take (a.length / 2)))
      | none => none := by
  obtain ⟨m, hm⟩ : ∃ m, a.length = m + 1 := ⟨a.length - 1, by omega⟩
  show mbiuAux F a.length a = _
  conv_lhs => rw [hm]
  simp only [mbiuAux]
  rw [if_neg (by omega), if_pos hp, if_neg (by omega)]
  rw [mbiuAux_mono F m (a.drop (a.length / 2)).length _ (by simp; omega) le_rfl]
  rfl

theorem rm_len1 (F : BinaryFieldConfig) (a b : List (List Bool))
    (ha : a.length = 1) (hb : b.length = 1) :
    recursive_mul F a b = some [bfMul F (a.getD 0 []) (b.getD 0 [])] := by
  show rmAux F a.length a b = _
  conv_lhs => rw [ha]
  show rmAux F (0 + 1) a b = _
  simp only [rmAux]
  rw [if_pos (by omega), if_pos ha]

theorem rm_step (F : BinaryFieldConfig) (a b : List (List Bool))
    (hab : a.length = b.length) (h2 : 2 ≤ a.length)
    (hp : is_power_of_two a.length = true) :
    recursive_mul F a b =
      match recursive_mul F (a.take (a.length / 2)) (b.take (a.length / 2)),
          recursive_mul F (a.drop (a.length / 2)) (b.drop (a.length / 2)),
          recursive_mul F (add_limbs_helper (a.take (a.length / 2)) (a.drop (a.length / 2)))
            (add_limbs_helper (b.take (a.length / 2)) (b.drop (a.length / 2))) with
      | some pll, some phh, some pss =>
        match mul_by_imag_unit F phh with
        | some shift =>
          some (add_limbs_helper pll phh ++
            add_limbs_helper (add_limbs_helper (add_limbs_helper pss pll) phh) shift)
        | none => none
      | _, _, _ => none := by
  obtain ⟨m, hm⟩ : ∃ m, a.length = m + 1 := ⟨a.length - 1, by omega⟩
  show rmAux F a.length a b = _
  conv_lhs => rw [hm]
  simp only [rmAux]
  rw [if_pos hab, if_neg (by omega), if_pos hp]
  rw [rmAux_mono F m (a.take (a.length / 2)).length _ _ (by simp; omega) le_rfl]
  rw [rmAux_mono F m (a.drop (a.length / 2)).length _ _ (by simp; omega) le_rfl]
  rw [rmAux_mono F m (add_limbs_helper (a.take (a.length / 2)) (a.drop (a.length / 2))).length
    _ _ (by simp [add_limbs_helper]; omega) le_rfl]
  rfl

/- Totality and length preservation on well-shaped inputs. -/

theorem mbiu_total (F : BinaryFieldConfig) :
    ∀ n (a : List (List Bool)), a.length = n → is_power_of_two n = true →
      ∃ c, mul_by_imag_unit F a = some c ∧ c.length = n := by
  intro n
  induction n using Nat.strong_induction_on with
  | _ n ih =>
    intro a hl hp
    subst hl
    by_cases h1 : a.length = 1
    · exact ⟨_, mbiu_len1 F a h1, by simp [h1]⟩
    · have h2 : 2 ≤ a.length := ipo_ge_two _ h1 hp
      by_cases h2eq : a.length = 2
      · exact ⟨_, mbiu_len2 F a h2eq, by simp [h2eq]⟩
      · have h3 : 3 ≤ a.length := by omega
        have heven := ipo_half _ h2 hp
        have hlow_len : (a.drop (a.length / 2)).length = a.length / 2 := by
          simp
          omega
        obtain ⟨c, hc, hcl⟩ := ih (a.length / 2) (by omega) (a.drop (a.length / 2))
          hlow_len heven.2
        refine ⟨a.drop (a.length / 2) ++ add_limbs_helper c (a.take (a.length / 2)), ?_, ?_⟩
        · rw [mbiu_step F a hp h3, hc]
        · simp [add_limbs_helper, hcl, hlow_len]
          omega

theorem rm_total (F : BinaryFieldConfig) :
    ∀ n (a b : List (List Bool)), a.length = n → b.length = n →
      is_power_of_two n = true →
      ∃ c, recursive_mul F a b = some c ∧ c.length = n := by
  intro n
  induction n using Nat.strong_induction_on with
  | _ n ih =>
    intro a b hal hbl hp
    subst hal
    by_cases h1 : a.length = 1
    · exact ⟨_, rm_len1 F a b h1 (by omega), by simp [h1]⟩
    · have h2 : 2 ≤ a.length := ipo_ge_two _ h1 hp
      have heven := ipo_half _ h2 hp
      have hhalf : a.length / 2 < a.length := by omega
      have hpl : is_power_of_two (a.length / 2) = true := heven.2
      have hlen_tl : (a.take (a.length / 2)).length = a.length / 2 := by simp; omega
      have hlen_dl : (a.drop (a.length / 2)).length = a.length / 2 := by simp; omega
      have hlen_tr : (b.take (a.length / 2)).length = a.length / 2 := by simp; omega
      have hlen_dr : (b.drop (a.length / 2)).length = a.length / 2 := by simp; omega
      have hlen_sa : (add_limbs_helper (a.take (a.length / 2)) (a.drop (a.length / 2))).length
          = a.length / 2 := by
        simp [add_limbs_helper]
        omega
      have hlen_sb : (add_limbs_helper (b.take (a.length / 2)) (b.drop (a.length / 2))).length
          = a.length / 2 := by
        simp [add_limbs_helper]
        omega
      obtain ⟨pll, hll, hll_len⟩ := ih (a.length / 2) hhalf _ _ hlen_tl hlen_tr hpl
      obtain ⟨phh, hhh, hhh_len⟩ := ih (a.length / 2) hhalf _ _ hlen_dl hlen_dr hpl
      obtain ⟨pss, hss, hss_len⟩ := ih (a.length / 2) hhalf _ _ hlen_sa hlen_sb hpl
      obtain ⟨shift, hsh, hsh_len⟩ := mbiu_total F (a.length / 2) phh hhh_len hpl
      refine ⟨add_limbs_helper pll phh ++
        add_limbs_helper (add_limbs_helper (add_limbs_helper pss pll) phh) shift, ?_, ?_⟩
      · rw [rm_step F a b (by omega) h2 hp, hll, hhh, hss]
        simp only [hsh]
      · simp [add_limbs_helper, hll_len, hhh_len, hss_len, hsh_len]
        omega

theorem ringMul_eq_recursive (F : BinaryFieldConfig) (a b : List (List Bool))
    (hab : a.length = b.length) : ringMul F a b = recursive_mul F a b := by
  simp [ringMul, hab]

theorem chunk_fold (F : BinaryFieldConfig) (x y : List (List Bool))
    (hpy : is_power_of_two y.length = true) :
    ∀ k, y.length * k ≤ x.length →
      ∃ c,
        (List.range k).foldl
          (fun acc i =>
            match acc, recursive_mul F ((x.drop (y.length * i)).take y.length) y with
            | some r, some c => some (r ++ c)
            | _, _ => none)
          (some []) = some c ∧ c.length = k * y.length := by
  intro k
  induction k with
  | zero => exact fun _ => ⟨[], by simp, by simp⟩
  | succ n ih =>
    intro hk
    have hmul : y.length * (n + 1) = y.length * n + y.length := by ring
    obtain ⟨c, hc, hcl⟩ := ih (by omega)
    rw [List.range_succ, List.foldl_append, hc]
    have hchunk : ((x.drop (y.length * n)).take y.length).length = y.length := by
      simp
      omega
    obtain ⟨p, hp2, hpl⟩ := rm_total F y.length _ y hchunk rfl hpy
    simp only [List.foldl_cons, List.foldl_nil, hp2]
    exact ⟨c ++ p, rfl, by simp [hcl, hpl]; ring⟩

/-- Claim C2: recursive multiplication on equal power-of-two lengths L >= 2
splits both operands at L/2, forms the three Karatsuba sub-products P_ll,
P_hh, P_ss (the last on the limb-wise sums of the halves), and returns
low_term = P_ll + P_hh followed by high_term = ((P_ss + P_ll) + P_hh) +
multiply_by_basis(P_hh); for L = 1 it returns the single limb
BaseField.multiply(a[0], b[0]). -/
theorem claim_c2_recursive_mul_structure :
    (∀ (F : BinaryFieldConfig) (a b : List (List Bool)),
      a.length = b.length → 2 ≤ a.length → is_power_of_two a.length = true →
      ∀ pll phh pss shift,
        recursive_mul F (a.take (a.length / 2)) (b.take (a.length / 2)) = some pll →
        recursive_mul F (a.drop (a.length / 2)) (b.drop (a.length / 2)) = some phh →
        recursive_mul F (add_limbs_helper (a.take (a.length / 2)) (a.drop (a.length / 2)))
          (add_limbs_helper (b.take (a.length / 2)) (b.drop (a.length / 2))) = some pss →
        mul_by_imag_unit F phh = some shift →
        recursive_mul F a b = some (add_limbs_helper pll phh ++
          add_limbs_helper (add_limbs_helper (add_limbs_helper pss pll) phh) shift)) ∧
    (∀ (F : BinaryFieldConfig) (u v : List Bool),
      recursive_mul F [u] [v] = some [bfMul F u v]) := by
  constructor
  · intro F a b hab h2 hp pll phh pss shift hll hhh hss hsh
    rw [rm_step F a b hab h2 hp, hll, hhh, hss]
    simp only [hsh]
  · intro F u v
    exact rm_len1 F [u] [v] rfl rfl

/-- Witness for claim C2 at a concrete level-1 input over the trivial field. -/
theorem claim_c2_witness :
    recursive_mul F2 [[true], [false]] [[true], [true]]
      = some (add_limbs_helper [[true]] [[false]] ++
          add_limbs_helper
            (add_limbs_helper (add_limbs_helper [[false]] [[true]]) [[false]]) [[false]]) :=
  claim_c2_recursive_mul_structure.1 F2 [[true], [false]] [[true], [true]] rfl (by decide)
    (by decide) [[true]] [[false]] [[false]] [[false]]
    (by decide) (by decide) (by decide) (by decide)

/-- Claim C3 counterexample: over the AES base field, multiplying the
two-limb element (0, 1) by the basis element yields a high limb equal to
0 + imag_unit * 1 = imag_unit, not 0 + 1 as the claim states. -/
theorem claim_c3_counterexample :
    ¬ (mul_by_imag_unit AESPoly [bfZero AESPoly, bfOne AESPoly]
        = some [bfOne AESPoly, bfAdd (bfZero AESPoly) (bfOne AESPoly)]) := by decide

/-- Claim C3 amended: for every two-limb element (x0, x1) the result of
multiply_by_basis has low limb x1 and high limb x0 + imag_unit * x1, the
base-field product of x1 with the imaginary-unit constant, not x0 + x1. -/
theorem claim_c3_amended (F : BinaryFieldConfig) (x0 x1 : List Bool) :
    mul_by_imag_unit F [x0, x1] = some [x1, bfAdd x0 (bfMulByImagUnit F x1)] :=
  mbiu_len2 F [x0, x1] rfl

/-- Claim C4: over the AES base field at level 1, the product of the element
decoded from bytes 0x95 0xf9 with the element decoded from 0xcd 0x19 is the
element decoded from 0x49 0xc4. -/
theorem claim_c4_level1_vector :
    (from_bytes AESPoly 2 [0x95, 0xf9]).bind
      (fun a => (from_bytes AESPoly 2 [0xcd, 0x19]).bind
        (fun b => ringMul AESPoly a b))
      = from_bytes AESPoly 2 [0x49, 0xc4] := by decide

/-- Claim C5 divergence witness: on a level-1 table and point over the
trivial field, evaluate returns a value, while the spec formula
(1-r1)(1-r2)e00 + r1(1-r2)e01 + (1-r1)r2 e10 + r1 r2 e11, computed with the
ring operations of the code, panics: Ring::one() - r1 indexes the clone of
the one-limb left operand at position 1. -/
theorem claim_c5_divergence :
    (evaluate F2 [[[true], [false]], [[false], [true]], [[true], [true]], [[false], [false]]]
      [[[false], [true]], [[false], [true]]]).isSome = true ∧
    c5_formula F2 [[true], [false]] [[false], [true]] [[true], [true]] [[false], [false]]
      [[false], [true]] [[false], [true]] = none := by decide

/-- Claim C6 counterexample: lengths 3 and 2 are not exact multiples, yet
multiplication does not fail: it returns the two-limb product of the first
chunk, silently dropping the third limb of the longer operand. -/
theorem claim_c6_counterexample :
    ringMul F2 [[true], [false], [true]] [[true], [false]]
      = some [[true], [false]] := by decide

/-- Claim C6 amended: for unequal limb counts with the shorter length a
power of two, multiplication succeeds and returns
floor(long/short) * short limbs - the excess limbs of the longer operand
are silently dropped when the lengths are not exact multiples. -/
theorem claim_c6_amended (F : BinaryFieldConfig) (x y : List (List Bool))
    (hlt : y.length < x.length) (hpy : is_power_of_two y.length = true) :
    ∃ c, ringMul F x y = some c ∧ c.length = (x.length / y.length) * y.length := by
  have hy0 : y.length ≠ 0 := ipo_ne_zero _ hpy
  have hne : ¬ (x.length = y.length) := by omega
  have hsw : ¬ (x.length < y.length) := by omega
  simp only [ringMul, hne, if_false, hsw, hy0]
  have := chunk_fold F x y hpy (x.length / y.length)
    (by
      have h1 : y.length * (x.length / y.length) = (x.length / y.length) * y.length := by ring
      rw [h1]
      exact Nat.div_mul_le_self x.length y.length)
  obtain ⟨c, hc, hcl⟩ := this
  exact ⟨c, by rw [← hc], by rw [hcl]⟩

/-- Witness for claim C6 amended at the concrete lengths 3 and 2. -/
theorem claim_c6_witness :
    (2 : Nat) < 3 ∧ (ringMul F2 [[true], [false], [true]] [[true], [false]]).isSome = true := by
  refine ⟨by omega, ?_⟩
  obtain ⟨c, hc, hcl⟩ := claim_c6_amended F2 [[true], [false], [true]] [[true], [false]]
    (by decide) (by decide)
  rw [hc]
  rfl

/-- Claim C7: Add for Ring clones the left operand and then writes
res[i] for every index i below the length of the right operand, so a longer
right operand indexes past the end of the clone and panics; the excess limbs
are copied through only when the longer operand is on the left.  The repo
tests require the symmetric zero-padding behaviour the claim states. -/
theorem claim_c7_add_panics :
    ringAdd [[false]] [[false], [true]] = none ∧
    ringAdd [[false], [true]] [[false]] = some [[false], [true]] := by decide

/-- Claim C8 counterexample: a 5-entry table is not a power of two, yet with
a 2-coordinate point (2 = floor(log2 5)) evaluate returns a value instead of
failing. -/
theorem claim_c8_counterexample :
    evaluate F2 [[[true]], [[false]], [[true]], [[false]], [[true]]]
      [[[true]], [[false]]] ≠ none := by decide

/-- Claim C8 amended: evaluate checks only that the point length equals
floor(log2(table length)) (and the empty table panics inside ilog2); the
table length is never required to be a power of two, and for instance every
5-entry table of single-limb entries with 2 single-limb coordinates yields a
value. -/
theorem claim_c8_amended :
    (∀ (F : BinaryFieldConfig) (table point : List (List (List Bool))),
      point.length ≠ Nat.log2 table.length → evaluate F table point = none) ∧
    (∀ (F : BinaryFieldConfig) (point : List (List (List Bool))),
      evaluate F [] point = none) ∧
    (∀ (F : BinaryFieldConfig) (e1 e2 e3 e4 e5 r1 r2 : List Bool),
      (evaluate F [[e1], [e2], [e3], [e4], [e5]] [[r1], [r2]]).isSome = true) := by
  refine ⟨?_, ?_, ?_⟩
  · intro F table point h
    by_cases h0 : table.length = 0
    · simp [evaluate, h0]
    · have hne : ¬ (u32_ilog2 table.length = point.length) := by
        rw [u32_ilog2_eq_log2]
        omega
      simp [evaluate, h0, hne]
  · intro F point
    rfl
  · intro F e1 e2 e3 e4 e5 r1 r2
    unfold evaluate
    rw [show ([[e1], [e2], [e3], [e4], [e5]] : List (List (List Bool))).length = 5 from rfl]
    rw [show ([[r1], [r2]] : List (List (List Bool))).length = 2 from rfl]
    rw [show u32_ilog2 5 = 2 from rfl]
    rfl

/-- Witness for claim C8 amended: a dimension mismatch fails, and the
5-entry non-power-of-two table evaluates. -/
theorem claim_c8_witness :
    evaluate F2 [[[true]]] [[[true]]] = none ∧
    (evaluate F2 [[[true]], [[true]], [[true]], [[true]], [[true]]]
      [[[true]], [[true]]]).isSome = true :=
  ⟨claim_c8_amended.1 F2 [[[true]]] [[[true]]]
      (by rw [← u32_ilog2_eq_log2]; decide),
    claim_c8_amended.2.2 F2 [true] [true] [true] [true] [true] [true] [true]⟩

/- Byte-stream lemmas for from_bytes. -/

theorem testBit_add_shift_low (x y k : Nat) (_hx : x < 256) (hk : k < 8) :
    (x + 256 * y).testBit k = x.testBit k := by
  rw [Nat.testBit_to_div_mod, Nat.testBit_to_div_mod]
  have h256 : (256 : Nat) = 2 ^ k * 2 ^ (8 - k) := by
    rw [← pow_add]
    have hke : k + (8 - k) = 8 := by omega
    rw [hke]
    norm_num
  have hdiv : (x + 256 * y) / 2 ^ k = x / 2 ^ k + 2 ^ (8 - k) * y := by
    rw [h256, mul_assoc]
    exact Nat.add_mul_div_left x _ (Nat.two_pow_pos k)
  rw [hdiv]
  have heven : ∃ j, 2 ^ (8 - k) = 2 * j := by
    refine ⟨2 ^ (7 - k), ?_⟩
    rw [← pow_succ']
    have hke : 7 - k + 1 = 8 - k := by omega
    rw [hke]
  obtain ⟨j, hj⟩ := heven
  rw [hj]
  have h2 : 2 * j * y = 2 * (j * y) := by ring
  rw [h2]
  have hmod : (x / 2 ^ k + 2 * (j * y)) % 2 = x / 2 ^ k % 2 := by omega
  rw [hmod]

theorem testBit_add_shift_high (x y k : Nat) (hx : x < 256) (hk : 8 ≤ k) :
    (x + 256 * y).testBit k = y.testBit (k - 8) := by
  rw [Nat.testBit_to_div_mod, Nat.testBit_to_div_mod]
  have h2k : (2 : Nat) ^ k = 256 * 2 ^ (k - 8) := by
    have h256 : (256 : Nat) = 2 ^ 8 := by norm_num
    rw [h256, ← pow_add]
    congr 1
    omega
  have hdiv : (x + 256 * y) / 2 ^ k = y / 2 ^ (k - 8) := by
    rw [h2k, ← Nat.div_div_eq_div_mul]
    congr 1
    rw [Nat.add_mul_div_left x y (by omega : (0:Nat) < 256)]
    omega
  rw [hdiv]

theorem flat_bits_getD :
    ∀ (w : List Nat) (k : Nat),
      (w.flatMap (fun byte => (List.range 8).map (fun i => byte.testBit i))).getD k false
        = (leNat w).testBit k := by
  intro w
  induction w with
  | nil =>
    intro k
    simp [leNat, Nat.zero_testBit]
  | cons b t ih =>
    intro k
    rw [List.flatMap_cons]
    by_cases hk : k < 8
    · rw [list_getD_append_left _ _ _ _ (by simpa using hk)]
      rw [list_getD_range_map, if_pos hk]
      show b.testBit k = (leNat (b :: t)).testBit k
      rw [leNat, testBit_add_shift_low _ _ _ (by omega) hk]
      have : (b % 256).testBit k = (decide (k < 8) && b.testBit k) := by
        have h256 : (256 : Nat) = 2 ^ 8 := by norm_num
        rw [h256, Nat.testBit_mod_two_pow]
      rw [this]
      simp [hk]
    · rw [list_getD_append_right _ _ _ _ (by simp; omega)]
      have hlen : ((List.range 8).map (fun i => b.testBit i)).length = 8 := by simp
      rw [hlen, ih (k - 8)]
      show _ = (leNat (b :: t)).testBit k
      rw [leNat, testBit_add_shift_high _ _ _ (by omega) (by omega)]

theorem leNat_append_single :
    ∀ (u : List Nat) (b : Nat), leNat (u ++ [b]) = leNat u + b % 256 * 256 ^ u.length := by
  intro u
  induction u with
  | nil => simp [leNat]
  | cons c t ih =>
    intro b
    rw [List.cons_append, leNat, leNat, ih b]
    simp [pow_succ]
    ring

theorem beNat_aux :
    ∀ (v : List Nat) (acc : Nat),
      List.foldl (fun acc b => acc * 256 + b % 256) acc v
        = acc * 256 ^ v.length + leNat v.reverse := by
  intro v
  induction v with
  | nil =>
    intro acc
    simp [leNat]
  | cons b t ih =>
    intro acc
    rw [List.foldl_cons, ih, List.reverse_cons, leNat_append_single]
    simp [pow_succ, List.length_reverse]
    ring

theorem beNat_eq_leNat_reverse (v : List Nat) : beNat v = leNat v.reverse := by
  unfold beNat
  rw [beNat_aux v 0]
  simp

theorem bits_getD_testBit (v : List Nat) (k : Nat) :
    (bytes_to_bits_le v).getD k false = (beNat v).testBit k := by
  unfold bytes_to_bits_le
  rw [flat_bits_getD, ← beNat_eq_leNat_reverse]

theorem flat_bits_len :
    ∀ (w : List Nat),
      (w.flatMap (fun byte => (List.range 8).map (fun i => byte.testBit i))).length
        = 8 * w.length := by
  intro w
  induction w with
  | nil => simp
  | cons b t ih =>
    rw [List.flatMap_cons]
    simp [ih]
    omega

theorem bytes_bits_len (v : List Nat) : (bytes_to_bits_le v).length = 8 * v.length := by
  unfold bytes_to_bits_le
  rw [flat_bits_len]
  simp

/-- Claim C10: from_bytes panics exactly when the byte slice supplies fewer
than l*N bits; otherwise it returns l limbs whose bit (j, i) is bit
j*N + i of the big-endian integer value of the byte string, the surplus
high-order bits being silently ignored, with no power-of-two check on l. -/
theorem claim_c10_from_bytes (F : BinaryFieldConfig) (l : Nat) (v : List Nat) :
    (from_bytes F l v = none ↔ 8 * v.length < l * F.N) ∧
    (∀ r, from_bytes F l v = some r →
      r.length = l ∧
      ∀ j i, j < l → i < F.N →
        (r.getD j []).getD i false = (beNat v).testBit (j * F.N + i)) := by
  have hlen := bytes_bits_len v
  constructor
  · unfold from_bytes
    by_cases h : l * F.N ≤ 8 * v.length
    · rw [if_pos (by rw [hlen]; exact h)]
      simp
      omega
    · rw [if_neg (by rw [hlen]; omega)]
      simp
      omega
  · intro r hr
    unfold from_bytes at hr
    by_cases h : l * F.N ≤ (bytes_to_bits_le v).length
    · rw [if_pos h] at hr
      have hre : r = (List.range l).map
          (fun k => ((bytes_to_bits_le v).drop (k * F.N)).take F.N) :=
        (Option.some.inj hr).symm
      subst hre
      constructor
      · simp
      · intro j i hj hi
        rw [list_getD_range_map, if_pos hj]
        rw [list_getD_take _ _ _ _ hi, list_getD_drop]
        exact bits_getD_testBit v (j * F.N + i)
    · rw [if_neg h] at hr
      exact absurd hr (by simp)

/-- Witness for claim C10: two trivial-field limbs decoded from the byte
0x03. -/
theorem claim_c10_witness :
    from_bytes F2 2 [3] = some [[true], [true]] ∧
    ([[true], [true]] : List (List Bool)).length = 2 ∧
    (([[true], [true]] : List (List Bool)).getD 0 []).getD 0 false
      = (beNat [3]).testBit (0 * F2.N + 0) := by
  refine ⟨by decide, ?_, ?_⟩
  · exact ((claim_c10_from_bytes F2 2 [3]).2 [[true], [true]] (by decide)).1
  · exact ((claim_c10_from_bytes F2 2 [3]).2 [[true], [true]] (by decide)).2 0 0
      (by decide) (by decide)

/-- Claim C9: equal power-of-two length operands multiply to a product of
the same length, and multiply_by_basis preserves power-of-two lengths. -/
theorem claim_c9_closure :
    (∀ (F : BinaryFieldConfig) (a b : List (List Bool)),
      a.length = b.length → is_power_of_two a.length = true →
      ∃ c, ringMul F a b = some c ∧ c.length = a.length) ∧
    (∀ (F : BinaryFieldConfig) (a : List (List Bool)),
      is_power_of_two a.length = true →
      ∃ c, mul_by_imag_unit F a = some c ∧ c.length = a.length) := by
  constructor
  · intro F a b hab hp
    rw [ringMul_eq_recursive F a b hab]
    exact rm_total F a.length a b rfl hab.symm hp
  · intro F a hp
    exact mbiu_total F a.length a rfl hp

/-- Witness for claim C9 at concrete level-1 inputs over the trivial field. -/
theorem claim_c9_witness :
    (ringMul F2 [[true], [false]] [[false], [true]]).isSome = true ∧
    (mul_by_imag_unit F2 [[true], [false]]).isSome = true := by
  constructor
  · obtain ⟨c, hc, _⟩ := claim_c9_closure.1 F2 [[true], [false]] [[false], [true]]
      rfl (by decide)
    rw [hc]
    rfl
  · obtain ⟨c, hc, _⟩ := claim_c9_closure.2 F2 [[true], [false]] (by decide)
    rw [hc]
    rfl

/- Polynomial model of the base field: basic facts about bitC and toP. -/

theorem bitC_xor (x y : Bool) : bitC (xor x y) = bitC x + bitC y := by
  cases x <;> cases y <;> decide

theorem bitC_and (x y : Bool) : bitC (x && y) = bitC x * bitC y := by
  cases x <;> cases y <;> decide

theorem bitC_self_add (x : Bool) : bitC x + bitC x = 0 := by
  cases x <;> decide

theorem bitC_inj (x y : Bool) (h : bitC x = bitC y) : x = y := by
  cases x <;> cases y <;> simp_all [bitC]

theorem toP_coeff (l : List Bool) (k : Nat) : (toP l).coeff k = bitC (l.getD k false) := by
  unfold toP
  rw [Polynomial.finset_sum_coeff]
  have hterm : ∀ i ∈ Finset.range l.length,
      (Polynomial.C (bitC (l.getD i false)) * Polynomial.X ^ i).coeff k
        = if k = i then bitC (l.getD i false) else 0 := by
    intro i _
    rw [Polynomial.coeff_C_mul, Polynomial.coeff_X_pow]
    by_cases h : k = i <;> simp [h]
  rw [Finset.sum_congr rfl hterm,
    Finset.sum_ite_eq (Finset.range l.length) k (fun i => bitC (l.getD i false))]
  by_cases h : k < l.length
  · rw [if_pos (Finset.mem_range.mpr h)]
  · rw [if_neg (by simp [Finset.mem_range]; omega)]
    rw [list_getD_eq_default l false k (by omega)]
    rfl

theorem toP_ext (l1 l2 : List Bool) (hlen : l1.length = l2.length)
    (h : toP l1 = toP l2) : l1 = l2 := by
  apply list_ext_getD l1 l2 false hlen
  intro j
  apply bitC_inj
  rw [← toP_coeff, ← toP_coeff, h]

theorem toP_coeff_high (l : List Bool) (k : Nat) (hk : l.length ≤ k) :
    (toP l).coeff k = 0 := by
  rw [toP_coeff, list_getD_eq_default _ _ _ hk]
  rfl

theorem toP_degree_lt (l : List Bool) : (toP l).degree < (l.length : Nat) :=
  (Polynomial.degree_lt_iff_coeff_zero _ _).mpr (fun m hm => toP_coeff_high l m (by
    exact_mod_cast hm))

theorem toP_set_xor (l : List Bool) (k : Nat) (c : Bool) (h : k < l.length) :
    toP (l.set k (xor (l.getD k false) c))
      = toP l + Polynomial.C (bitC c) * Polynomial.X ^ k := by
  apply Polynomial.ext
  intro n
  rw [Polynomial.coeff_add, toP_coeff, toP_coeff, Polynomial.coeff_C_mul,
    Polynomial.coeff_X_pow]
  by_cases hn : n = k
  · subst hn
    rw [list_getD_set_self _ _ _ _ h, bitC_xor]
    simp
  · rw [list_getD_set_ne _ _ _ _ _ (fun he => hn he.symm)]
    simp [hn]

theorem toP_zipWith_xor (a b : List Bool) (h : a.length = b.length) :
    toP (List.zipWith xor a b) = toP a + toP b := by
  apply Polynomial.ext
  intro n
  rw [Polynomial.coeff_add, toP_coeff, toP_coeff, toP_coeff,
    list_getD_zipWith_xor a b n h, bitC_xor]

theorem toP_replicate_false (n : Nat) : toP (List.replicate n false) = 0 := by
  apply Polynomial.ext
  intro k
  rw [toP_coeff, list_getD_replicate _ _ _ _ rfl]
  simp [bitC]

/- The xor-update loop: length, additivity, untouched positions. -/

theorem xorUpd_succ (pos : Nat → Nat) (val : Nat → Bool) (t : List Bool) (n : Nat) :
    xorUpd pos val t (n + 1)
      = (xorUpd pos val t n).set (pos n)
          (xor ((xorUpd pos val t n).getD (pos n) false) (val n)) := by
  unfold xorUpd
  rw [List.range_succ, List.foldl_append]
  rfl

theorem xorUpd_length (pos : Nat → Nat) (val : Nat → Bool) (t : List Bool) :
    ∀ m, (xorUpd pos val t m).length = t.length := by
  intro m
  induction m with
  | zero => rfl
  | succ n ih =>
    rw [xorUpd_succ, List.length_set]
    exact ih

theorem xorUpd_toP (pos : Nat → Nat) (val : Nat → Bool) (t : List Bool) :
    ∀ m, (∀ j, j < m → pos j < t.length) →
      toP (xorUpd pos val t m)
        = toP t + ∑ j ∈ Finset.range m,
            Polynomial.C (bitC (val j)) * Polynomial.X ^ pos j := by
  intro m
  induction m with
  | zero =>
    intro _
    simp [xorUpd]
  | succ n ih =>
    intro hb
    rw [xorUpd_succ,
      toP_set_xor _ _ _ (by rw [xorUpd_length]; exact hb n (by omega)),
      ih (fun j hj => hb j (by omega)), Finset.sum_range_succ]
    ring

theorem xorUpd_getD_untouched (pos : Nat → Nat) (val : Nat → Bool) (t : List Bool) :
    ∀ m k, (∀ j, j < m → pos j ≠ k) →
      (xorUpd pos val t m).getD k false = t.getD k false := by
  intro m
  induction m with
  | zero =>
    intro k _
    rfl
  | succ n ih =>
    intro k hb
    rw [xorUpd_succ, list_getD_set_ne _ _ _ _ _ (hb n (by omega)),
      ih k (fun j hj => hb j (by omega))]

/- The convolution loop computes toP a * toP b. -/

theorem convInner_eq_xorUpd (N : Nat) (a b t : List Bool) (i : Nat) :
    convInner N a b t i
      = xorUpd (fun j => i + j) (fun j => a.getD i false && b.getD j false) t N := rfl

theorem convInner_length (N : Nat) (a b t : List Bool) (i : Nat) :
    (convInner N a b t i).length = t.length := by
  rw [convInner_eq_xorUpd]
  exact xorUpd_length _ _ _ _

theorem convInner_toP (N : Nat) (a b t : List Bool) (i : Nat)
    (hb : ∀ j, j < N → i + j < t.length) :
    toP (convInner N a b t i)
      = toP t + ∑ j ∈ Finset.range N,
          Polynomial.C (bitC (a.getD i false && b.getD j false)) * Polynomial.X ^ (i + j) := by
  rw [convInner_eq_xorUpd]
  exact xorUpd_toP _ _ _ N hb

theorem convLoop_partial_length (N : Nat) (a b t : List Bool) :
    ∀ m, ((List.range m).foldl (convInner N a b) t).length = t.length := by
  intro m
  induction m with
  | zero => rfl
  | succ n ih =>
    rw [List.range_succ, List.foldl_append]
    simp only [List.foldl_cons, List.foldl_nil]
    rw [convInner_length]
    exact ih

theorem convLoop_partial_toP (N : Nat) (a b t : List Bool) :
    ∀ m, (∀ i j, i < m → j < N → i + j < t.length) →
      toP ((List.range m).foldl (convInner N a b) t)
        = toP t + ∑ i ∈ Finset.range m, ∑ j ∈ Finset.range N,
            Polynomial.C (bitC (a.getD i false && b.getD j false)) * Polynomial.X ^ (i + j) := by
  intro m
  induction m with
  | zero =>
    intro _
    simp
  | succ n ih =>
    intro hb
    rw [List.range_succ, List.foldl_append]
    simp only [List.foldl_cons, List.foldl_nil]
    rw [convInner_toP N a b _ n
      (fun j hj => by
        rw [convLoop_partial_length]
        exact hb n j (by omega) hj),
      ih (fun i j hi hj => hb i j (by omega) hj), Finset.sum_range_succ]
    ring

theorem conv_sum_eq_mul (N : Nat) (a b : List Bool) (ha : a.length = N) (hb : b.length = N) :
    ∑ i ∈ Finset.range N, ∑ j ∈ Finset.range N,
        Polynomial.C (bitC (a.getD i false && b.getD j false)) * Polynomial.X ^ (i + j)
      = toP a * toP b := by
  unfold toP
  rw [ha, hb, Finset.sum_mul_sum]
  apply Finset.sum_congr rfl
  intro i _
  apply Finset.sum_congr rfl
  intro j _
  rw [bitC_and, map_mul, pow_add]
  ring

theorem convLoop_toP (F : BinaryFieldConfig) (a b : List Bool) (hN : 1 ≤ F.N)
    (ha : a.length = F.N) (hb : b.length = F.N) :
    toP (convLoop F.N a b (List.replicate (2 * F.N - 1) false)) = toP a * toP b ∧
    (convLoop F.N a b (List.replicate (2 * F.N - 1) false)).length = 2 * F.N - 1 := by
  constructor
  · show toP ((List.range F.N).foldl (convInner F.N a b) _) = _
    rw [convLoop_partial_toP F.N a b _ F.N
      (fun i j hi hj => by
        rw [List.length_replicate]
        omega),
      toP_replicate_false, conv_sum_eq_mul F.N a b ha hb]
    ring
  · show ((List.range F.N).foldl (convInner F.N a b) _).length = _
    rw [convLoop_partial_length, List.length_replicate]

/- The reduction loop: invariant modulo the modulus polynomial. -/

theorem window_sum (F : BinaryFieldConfig) (i : Nat) (hpoly : F.poly.length = F.N)
    (hi : F.N ≤ i) :
    Polynomial.X ^ i + ∑ j ∈ Finset.range F.N,
        Polynomial.C (bitC (F.poly.getD j false)) * Polynomial.X ^ (i - 1 - j)
      = Polynomial.X ^ (i - F.N) * modPoly F := by
  unfold modPoly
  rw [mul_add]
  congr 1
  · rw [← pow_add]
    congr 1
    omega
  · unfold toP
    rw [List.length_reverse, hpoly, Finset.mul_sum, ← Finset.sum_range_reflect]
    apply Finset.sum_congr rfl
    intro m hm
    have hmN : m < F.N := Finset.mem_range.mp hm
    rw [list_getD_reverse _ _ _ (by rw [hpoly]; omega)]
    rw [hpoly]
    have hexp : i - 1 - (F.N - 1 - m) = (i - F.N) + m := by omega
    rw [hexp, pow_add]
    ring

theorem reduceInner_eq_xorUpd (N : Nat) (poly t : List Bool) (i : Nat) :
    reduceInner N poly t i
      = xorUpd (fun j => i - 1 - j) (fun j => poly.getD j false) t N := rfl

theorem reduceStep_props (F : BinaryFieldConfig) (t : List Bool) (i : Nat)
    (hN : 1 ≤ F.N) (hpoly : F.poly.length = F.N) (hi : F.N ≤ i) (hit : i < t.length) :
    AdjoinRoot.mk (modPoly F) (toP (reduceStep F.N F.poly t i))
      = AdjoinRoot.mk (modPoly F) (toP t)
    ∧ (reduceStep F.N F.poly t i).length = t.length
    ∧ (∀ k, i < k → (reduceStep F.N F.poly t i).getD k false = t.getD k false)
    ∧ (reduceStep F.N F.poly t i).getD i false = false := by
  unfold reduceStep
  by_cases ht : t.getD i false
  · rw [if_pos ht]
    have hset : t.set i false = t.set i (xor (t.getD i false) true) := by
      rw [ht]
      rfl
    have hsetlen : (t.set i false).length = t.length := List.length_set t i false
    have hposb : ∀ j, j < F.N → i - 1 - j < (t.set i false).length := by
      intro j hj
      rw [hsetlen]
      omega
    have htoP : toP (reduceInner F.N F.poly (t.set i false) i)
        = toP t + Polynomial.X ^ (i - F.N) * modPoly F := by
      rw [reduceInner_eq_xorUpd, xorUpd_toP _ _ _ F.N hposb, hset,
        toP_set_xor t i true hit]
      have hone : Polynomial.C (bitC true) = (1 : Polynomial (ZMod 2)) := by
        simp [bitC]
      rw [hone, one_mul, add_assoc, window_sum F i hpoly hi]
    refine ⟨?_, ?_, ?_, ?_⟩
    · rw [htoP, map_add, map_mul, AdjoinRoot.mk_self, mul_zero, add_zero]
    · rw [reduceInner_eq_xorUpd, xorUpd_length, hsetlen]
    · intro k hk
      rw [reduceInner_eq_xorUpd, xorUpd_getD_untouched _ _ _ F.N k (by intro j hj; omega),
        list_getD_set_ne _ _ _ _ _ (by omega)]
    · rw [reduceInner_eq_xorUpd, xorUpd_getD_untouched _ _ _ F.N i (by intro j hj; omega),
        list_getD_set_self _ _ _ _ hit]
  · rw [if_neg ht]
    refine ⟨rfl, rfl, fun k _ => rfl, ?_⟩
    rw [Bool.not_eq_true] at ht
    exact ht

theorem range'_succ_right (s n : Nat) :
    List.range' s (n + 1) = List.range' s n ++ [s + n] := by
  exact List.range'_1_concat s n

theorem reduceLoop_partial (F : BinaryFieldConfig) (hN : 1 ≤ F.N)
    (hpoly : F.poly.length = F.N) :
    ∀ (c : Nat) (t : List Bool), c ≤ F.N - 1 → t.length = 2 * F.N - 1 →
      (∀ k, F.N + c ≤ k → t.getD k false = false) →
      AdjoinRoot.mk (modPoly F)
          (toP (((List.range' F.N c).reverse).foldl (reduceStep F.N F.poly) t))
        = AdjoinRoot.mk (modPoly F) (toP t)
      ∧ (((List.range' F.N c).reverse).foldl (reduceStep F.N F.poly) t).length
          = 2 * F.N - 1
      ∧ ∀ k, F.N ≤ k →
          (((List.range' F.N c).reverse).foldl (reduceStep F.N F.poly) t).getD k false
            = false := by
  intro c
  induction c with
  | zero =>
    intro t hc hlen hhigh
    exact ⟨rfl, hlen, fun k hk => hhigh k (by omega)⟩
  | succ n ih =>
    intro t hc hlen hhigh
    have hr : (List.range' F.N (n + 1)).reverse = (F.N + n) :: (List.range' F.N n).reverse := by
      rw [range'_succ_right, List.reverse_append]
      rfl
    rw [hr, List.foldl_cons]
    have hstep := reduceStep_props F t (F.N + n) hN hpoly (by omega) (by omega)
    have hhigh1 : ∀ k, F.N + n ≤ k →
        (reduceStep F.N F.poly t (F.N + n)).getD k false = false := by
      intro k hk
      by_cases he : k = F.N + n
      · subst he
        exact hstep.2.2.2
      · rw [hstep.2.2.1 k (by omega)]
        exact hhigh k (by omega)
    obtain ⟨h1, h2, h3⟩ := ih (reduceStep F.N F.poly t (F.N + n)) (by omega)
      (by rw [hstep.2.1]; exact hlen) hhigh1
    exact ⟨by rw [h1, hstep.1], h2, h3⟩

theorem toP_take_high (l : List Bool) (n : Nat)
    (hh : ∀ k, n ≤ k → l.getD k false = false) : toP (l.take n) = toP l := by
  apply Polynomial.ext
  intro k
  rw [toP_coeff, toP_coeff]
  by_cases hk : k < n
  · rw [list_getD_take _ _ _ _ hk]
  · rw [hh k (by omega), list_getD_eq_default _ _ _ (by simp; omega)]

theorem bfMul_phi (F : BinaryFieldConfig) (a b : List Bool) (hN : 1 ≤ F.N)
    (hpoly : F.poly.length = F.N) (ha : a.length = F.N) (hb : b.length = F.N) :
    AdjoinRoot.mk (modPoly F) (toP (bfMul F a b))
      = AdjoinRoot.mk (modPoly F) (toP a) * AdjoinRoot.mk (modPoly F) (toP b)
    ∧ (bfMul F a b).length = F.N := by
  obtain ⟨hconv, hconvlen⟩ := convLoop_toP F a b hN ha hb
  have hinit : ∀ k, F.N + (F.N - 1) ≤ k →
      (convLoop F.N a b (List.replicate (2 * F.N - 1) false)).getD k false = false := by
    intro k hk
    exact list_getD_eq_default _ _ _ (by rw [hconvlen]; omega)
  obtain ⟨h1, h2, h3⟩ := reduceLoop_partial F hN hpoly (F.N - 1)
    (convLoop F.N a b (List.replicate (2 * F.N - 1) false)) le_rfl hconvlen hinit
  constructor
  · show AdjoinRoot.mk (modPoly F) (toP ((reduceLoop F.N F.poly _).take F.N)) = _
    unfold reduceLoop
    rw [toP_take_high _ _ h3, h1, hconv, map_mul]
  · show ((reduceLoop F.N F.poly _).take F.N).length = F.N
    unfold reduceLoop
    rw [List.length_take, h2]
    omega

/- Injectivity of the quotient image on length-N coefficient vectors. -/

theorem modPoly_monic (F : BinaryFieldConfig) (_hN : 1 ≤ F.N)
    (hpoly : F.poly.length = F.N) : (modPoly F).Monic := by
  unfold modPoly
  apply Polynomial.monic_X_pow_add
  have := toP_degree_lt (F.poly.reverse)
  rw [List.length_reverse, hpoly] at this
  exact this

theorem modPoly_degree (F : BinaryFieldConfig) (_hN : 1 ≤ F.N)
    (hpoly : F.poly.length = F.N) : (modPoly F).degree = F.N := by
  unfold modPoly
  rw [Polynomial.degree_add_eq_left_of_degree_lt, Polynomial.degree_X_pow]
  rw [Polynomial.degree_X_pow]
  have := toP_degree_lt (F.poly.reverse)
  rw [List.length_reverse, hpoly] at this
  exact this

theorem phi_inj (F : BinaryFieldConfig) (hN : 1 ≤ F.N) (hpoly : F.poly.length = F.N)
    (a b : List Bool) (ha : a.length = F.N) (hb : b.length = F.N)
    (h : AdjoinRoot.mk (modPoly F) (toP a) = AdjoinRoot.mk (modPoly F) (toP b)) :
    a = b := by
  have hdvd : modPoly F ∣ toP a - toP b := AdjoinRoot.mk_eq_mk.mp h
  have hdeg : (toP a - toP b).degree < (modPoly F).degree := by
    rw [modPoly_degree F hN hpoly]
    calc (toP a - toP b).degree ≤ max (toP a).degree (toP b).degree :=
          Polynomial.degree_sub_le _ _
      _ < (F.N : Nat) := max_lt (ha ▸ toP_degree_lt a) (hb ▸ toP_degree_lt b)
  have hzero : toP a - toP b = 0 := by
    by_contra hne
    exact absurd hdeg (not_lt_of_le (Polynomial.degree_le_of_dvd hdvd hne))
  exact toP_ext a b (by rw [ha, hb]) (sub_eq_zero.mp hzero)

/- Byte-level facts for the AES reference implementation. -/

theorem bP_coeff (v k : Nat) : (bP v).coeff k = bitC (decide (k < 8) && v.testBit k) := by
  unfold bP
  rw [toP_coeff]
  unfold bfFromU8
  rw [list_getD_range_map]
  have h8 : AESPoly.N = 8 := rfl
  rw [h8]
  by_cases h : k < 8 <;> simp [h]

theorem bP_split (b : Nat) (hb : b < 256) :
    bP b = Polynomial.C (bitC (b.testBit 0)) + Polynomial.X * bP (b / 2) := by
  apply Polynomial.ext
  intro k
  rw [Polynomial.coeff_add, bP_coeff, Polynomial.coeff_C]
  cases k with
  | zero =>
    rw [Polynomial.mul_coeff_zero, Polynomial.coeff_X_zero, zero_mul, add_zero]
    simp
  | succ m =>
    rw [Polynomial.coeff_X_mul, bP_coeff, if_neg (by omega), zero_add,
      ← Nat.testBit_succ]
    by_cases h7 : m < 7
    · simp [show m + 1 < 8 from by omega, show m < 8 from by omega]
    · by_cases h8 : m = 7
      · subst h8
        have h256 : (256 : Nat) = 2 ^ 8 := by norm_num
        have hbit : b.testBit 8 = false := Nat.testBit_lt_two_pow (by omega)
        simp [hbit, bitC]
      · simp [show ¬ (m + 1 < 8) from by omega, show ¬ (m < 8) from by omega, bitC]

theorem bP_xtime (a : Nat) :
    bP (a * 2 % 256)
      = Polynomial.X * bP a + Polynomial.C (bitC (a.testBit 7)) * Polynomial.X ^ 8 := by
  apply Polynomial.ext
  intro k
  rw [Polynomial.coeff_add, bP_coeff, Polynomial.coeff_C_mul, Polynomial.coeff_X_pow]
  have h256 : (256 : Nat) = 2 ^ 8 := by norm_num
  cases k with
  | zero =>
    rw [Polynomial.mul_coeff_zero, Polynomial.coeff_X_zero, zero_mul, zero_add,
      if_neg (by omega), mul_zero]
    have h0 : (a * 2 % 256).testBit 0 = false := by
      rw [Nat.testBit_zero]
      simp only [decide_eq_false_iff_not]
      omega
    simp [h0, bitC]
  | succ m =>
    rw [Polynomial.coeff_X_mul, bP_coeff]
    by_cases hk : m + 1 < 8
    · have hmod : (a * 2 % 256).testBit (m + 1) = (a * 2).testBit (m + 1) := by
        rw [h256, Nat.testBit_mod_two_pow]
        simp [hk]
      have hshift : (a * 2).testBit (m + 1) = a.testBit m := by
        rw [Nat.testBit_succ]
        congr 1
        omega
      rw [if_neg (by omega), mul_zero, add_zero]
      simp [hk, show m < 8 from by omega, hmod, hshift]
    · by_cases h8 : m + 1 = 8
      · rw [if_pos h8, mul_one]
        have hm : m = 7 := by omega
        subst hm
        have hd8 : decide ((8 : Nat) < 8) = false := by decide
        have hd7 : decide ((7 : Nat) < 8) = true := by decide
        rw [hd8, hd7, Bool.false_and, Bool.true_and, bitC_self_add]
        rfl
      · rw [if_neg h8, mul_zero, add_zero]
        simp [show ¬ (m + 1 < 8) from hk, show ¬ (m < 8) from by omega, bitC]

theorem bP_xor (x y : Nat) : bP (x ^^^ y) = bP x + bP y := by
  apply Polynomial.ext
  intro k
  rw [Polynomial.coeff_add, bP_coeff, bP_coeff, bP_coeff]
  by_cases h : k < 8
  · have hd : decide (k < 8) = true := by simp [h]
    simp only [hd, Bool.true_and, Nat.testBit_xor]
    exact bitC_xor _ _
  · simp [h, bitC]

theorem bP_zero_eq : bP 0 = 0 := by
  apply Polynomial.ext
  intro k
  rw [bP_coeff]
  simp [Nat.zero_testBit, bitC]

theorem modPoly_aes : modPoly AESPoly = Polynomial.X ^ 8 + bP 27 := by
  unfold modPoly bP
  have h : AESPoly.poly.reverse = bfFromU8 AESPoly 27 := by decide
  rw [h]
  rfl

theorem aes_xtime_phi (a : Nat) :
    Phi (if a &&& 128 ≠ 0 then a * 2 % 256 ^^^ 27 else a * 2 % 256)
      = AdjoinRoot.mk (modPoly AESPoly) Polynomial.X * Phi a := by
  have h7 : (a &&& 128 ≠ 0) ↔ a.testBit 7 = true := by
    have h128 : (128 : Nat) = 2 ^ 7 := by norm_num
    rw [h128, Nat.and_two_pow]
    cases hb : a.testBit 7 <;> simp [hb]
  by_cases hb7 : a.testBit 7 = true
  · rw [if_pos (h7.mpr hb7)]
    unfold Phi
    rw [bP_xor, bP_xtime, hb7]
    have hone : Polynomial.C (bitC true) = 1 := by simp [bitC]
    rw [hone, one_mul]
    have hz : AdjoinRoot.mk (modPoly AESPoly) (Polynomial.X ^ 8)
        + AdjoinRoot.mk (modPoly AESPoly) (bP 27) = 0 := by
      rw [← map_add, ← modPoly_aes]
      exact AdjoinRoot.mk_self
    rw [map_add, map_add, map_mul, add_assoc, hz, add_zero]
  · rw [if_neg (fun hc => hb7 (h7.mp hc))]
    unfold Phi
    rw [bP_xtime]
    have hb7f : a.testBit 7 = false := by
      cases hbt : a.testBit 7
      · rfl
      · exact absurd hbt hb7
    rw [hb7f]
    have hzero : Polynomial.C (bitC false) = 0 := by simp [bitC]
    rw [hzero, zero_mul, add_zero, map_mul]

theorem aes_sum_phi (a b s : Nat) :
    Phi (if b % 2 = 1 then s ^^^ a else s)
      = Phi s + AdjoinRoot.mk (modPoly AESPoly) (Polynomial.C (bitC (b.testBit 0))) * Phi a := by
  by_cases h : b % 2 = 1
  · rw [if_pos h]
    have ht : b.testBit 0 = true := by
      rw [Nat.testBit_zero]
      simp [h]
    rw [ht]
    have hone : Polynomial.C (bitC true) = 1 := by simp [bitC]
    rw [hone, map_one, one_mul]
    unfold Phi
    rw [bP_xor, map_add]
  · rw [if_neg h]
    have ht : b.testBit 0 = false := by
      rw [Nat.testBit_zero]
      simp [h]
    rw [ht]
    have hzero : Polynomial.C (bitC false) = 0 := by simp [bitC]
    rw [hzero, map_zero, zero_mul, add_zero]

theorem aes_split_phi (b : Nat) (hb : b < 256) :
    Phi b = AdjoinRoot.mk (modPoly AESPoly) (Polynomial.C (bitC (b.testBit 0)))
      + AdjoinRoot.mk (modPoly AESPoly) Polynomial.X * Phi (b / 2) := by
  unfold Phi
  rw [← map_mul, ← map_add, bP_split b hb]

theorem aes_step_inv (a b s : Nat) (ha : a < 256) (hb : b < 256) (hs : s < 256) :
    Phi (aes_ref_step (a, b, s)).2.2
        + Phi (aes_ref_step (a, b, s)).1 * Phi (aes_ref_step (a, b, s)).2.1
      = Phi s + Phi a * Phi b
    ∧ (aes_ref_step (a, b, s)).1 < 256
    ∧ (aes_ref_step (a, b, s)).2.2 < 256
    ∧ (aes_ref_step (a, b, s)).2.1 = b / 2 := by
  have h256 : (256 : Nat) = 2 ^ 8 := by norm_num
  refine ⟨?_, ?_, ?_, rfl⟩
  · show Phi (if b % 2 = 1 then s ^^^ a else s)
        + Phi (if a &&& 128 ≠ 0 then a * 2 % 256 ^^^ 27 else a * 2 % 256) * Phi (b / 2)
      = Phi s + Phi a * Phi b
    rw [aes_sum_phi, aes_xtime_phi, aes_split_phi b hb]
    ring
  · show (if a &&& 128 ≠ 0 then a * 2 % 256 ^^^ 27 else a * 2 % 256) < 256
    by_cases h : a &&& 128 ≠ 0
    · rw [if_pos h, h256]
      exact Nat.xor_lt_two_pow (by omega) (by omega)
    · rw [if_neg h]
      omega
  · show (if b % 2 = 1 then s ^^^ a else s) < 256
    by_cases h : b % 2 = 1
    · rw [if_pos h, h256]
      exact Nat.xor_lt_two_pow (by omega) (by omega)
    · rw [if_neg h]
      omega

theorem aes_iter_inv : ∀ (n a b s : Nat), a < 256 → b < 256 → s < 256 →
    Phi (aes_ref_iter n (a, b, s)).2.2
        + Phi (aes_ref_iter n (a, b, s)).1 * Phi (aes_ref_iter n (a, b, s)).2.1
      = Phi s + Phi a * Phi b
    ∧ (aes_ref_iter n (a, b, s)).2.2 < 256
    ∧ (aes_ref_iter n (a, b, s)).2.1 = b / 2 ^ n := by
  intro n
  induction n with
  | zero =>
    intro a b s ha hb hs
    refine ⟨rfl, hs, ?_⟩
    show b = b / 2 ^ 0
    simp
  | succ m ih =>
    intro a b s ha hb hs
    obtain ⟨halg, h1, h2, h3⟩ := aes_step_inv a b s ha hb hs
    obtain ⟨hrec, hrs, hrb⟩ := ih (aes_ref_step (a, b, s)).1 (aes_ref_step (a, b, s)).2.1
      (aes_ref_step (a, b, s)).2.2 h1 (by rw [h3]; omega) h2
    simp only [Prod.mk.eta] at hrec hrs hrb
    refine ⟨?_, ?_, ?_⟩
    · show Phi (aes_ref_iter m (aes_ref_step (a, b, s))).2.2
          + Phi (aes_ref_iter m (aes_ref_step (a, b, s))).1
              * Phi (aes_ref_iter m (aes_ref_step (a, b, s))).2.1
        = Phi s + Phi a * Phi b
      exact hrec.trans halg
    · exact hrs
    · show (aes_ref_iter m (aes_ref_step (a, b, s))).2.1 = b / 2 ^ (m + 1)
      rw [hrb, h3, Nat.div_div_eq_div_mul]
      congr 1
      exact (pow_succ' 2 m).symm

theorem aes_ref_phi (a b : Nat) (ha : a < 256) (hb : b < 256) :
    Phi (reference_implementation a b) = Phi a * Phi b := by
  obtain ⟨hinv, hs, hb8⟩ := aes_iter_inv 8 a b 0 ha hb (by omega)
  unfold reference_implementation
  have hbz : (aes_ref_iter 8 (a, b, 0)).2.1 = 0 := by
    rw [hb8]
    have h256 : (2 : Nat) ^ 8 = 256 := by norm_num
    rw [h256]
    omega
  rw [hbz] at hinv
  have hphi0 : Phi 0 = 0 := by
    unfold Phi
    rw [bP_zero_eq, map_zero]
  rw [hphi0, mul_zero, add_zero, zero_add] at hinv
  exact hinv

/-- Claim C1: for every pair of bytes, the carry-less-convolution-then-reduce
multiplication of BinaryField over AESPoly agrees with the classical AES
XOR-and-shift-with-0x1B algorithm (the reference implementation of the test
in binary_field.rs). -/
theorem claim_c1_aes_mul_reference (a b : Nat) (ha : a < 256) (hb : b < 256) :
    bfMul AESPoly (bfFromU8 AESPoly a) (bfFromU8 AESPoly b)
      = bfFromU8 AESPoly (reference_implementation a b) := by
  have hN : 1 ≤ AESPoly.N := by decide
  have hpoly : AESPoly.poly.length = AESPoly.N := by decide
  have hla : (bfFromU8 AESPoly a).length = AESPoly.N := by simp [bfFromU8]
  have hlb : (bfFromU8 AESPoly b).length = AESPoly.N := by simp [bfFromU8]
  have hlr : (bfFromU8 AESPoly (reference_implementation a b)).length = AESPoly.N := by
    simp [bfFromU8]
  obtain ⟨hmul, hlen⟩ := bfMul_phi AESPoly _ _ hN hpoly hla hlb
  apply phi_inj AESPoly hN hpoly _ _ hlen hlr
  rw [hmul]
  show Phi a * Phi b = Phi (reference_implementation a b)
  exact (aes_ref_phi a b ha hb).symm

/-- Witness for claim C1 at the FIPS-197 example pair 0x57, 0x83. -/
theorem claim_c1_witness :
    (0x57 : Nat) < 256 ∧
    bfMul AESPoly (bfFromU8 AESPoly 0x57) (bfFromU8 AESPoly 0x83)
      = bfFromU8 AESPoly (reference_implementation 0x57 0x83) :=
  ⟨by omega, claim_c1_aes_mul_reference 0x57 0x83 (by omega) (by omega)⟩

end Binius
